import Mathlib

/-!
Verification of the album ordering and caching subsystem of the 50mm photo
server (source file `album.go`).

Pure functions of the source (`containsPath`, `mergeList`, the key-cleaning
and thumbnail-selection logic of `GetOrderedPhotos`, `Canonicalize`,
`IsValid`, the fetch-time preprocessing of the ordering configuration) are
translated directly into Lean functions.  The external collaborators — the
S3 client, the YAML parser, the rendering collaborator `Site.GetPhotoForKey`
and the ini-section mapper — are modelled as explicit inputs: fetch results
arrive as `Except` values, parsed configurations as structures, and the
renderer as an abstract function `render : String → R`.  The concurrency of
the two cache layers is modelled by explicit state passing: one call to the
cache is a function from the pre-state and the (would-be) fetch result to
the returned value and the post-state.
-/

/-- The fixed name of the per-album ordering document (constant
`ORDERING_YAML_NAME` in album.go). -/
def ORDERING_YAML_NAME : String := "ordering.yaml"

/-- Go `strings.TrimLeft(s, "/")` as used by `containsPath`: removes every
leading slash character. -/
def trimLeftSlash (s : String) : String :=
  String.mk (s.toList.dropWhile (fun c => c == '/'))

/-- Embedding of `containsPath` (album.go line 157): true iff some element of
`corpus` equals `findme` once both sides are stripped of their leading
slashes.  The source loops with an early return; `List.any` is the same
computation. -/
def containsPath (corpus : List String) (findme : String) : Bool :=
  corpus.any (fun current => trimLeftSlash current == trimLeftSlash findme)

/-- Second loop of `mergeList` (album.go line 177): every bucket key not yet
present in the accumulated `mergedKeys` (under the normalized comparison of
`containsPath`) is appended, in bucket order. -/
def appendMissing (mergedKeys : List String) : List String → List String
  | [] => mergedKeys
  | bucketKey :: rest =>
    if containsPath mergedKeys bucketKey then appendMissing mergedKeys rest
    else appendMissing (mergedKeys ++ [bucketKey]) rest

/-- Embedding of `mergeList` (album.go line 169).  First loop: config keys
that exist in the bucket are kept, in config order (a plain filter — the
source does not test the accumulator here).  Second loop: `appendMissing`
over the bucket keys. -/
def mergeList (bucketKeys configKeys : List String) : List String :=
  appendMissing
    (configKeys.filter (fun configKey => containsPath bucketKeys configKey))
    bucketKeys

/-- A list has pairwise distinct entries under the leading-slash
normalization used by `containsPath`. -/
def pathDistinct : List String → Bool
  | [] => true
  | x :: rest => !containsPath rest x && pathDistinct rest

/-- The comparison described by the spec sentence for `containsPath`:
strip a SINGLE leading path separator.  Stated from the spec wording, for
comparison with the source's `TrimLeft` (which strips all of them). -/
def stripOneSlash (s : String) : String :=
  match s.toList with
  | '/' :: rest => String.mk rest
  | _ => s

/-- Go `strings.HasSuffix`. -/
def hasSuffix (s suffix : String) : Bool :=
  suffix.toList.isSuffixOf s.toList

/-- The key-cleaning loop of `GetOrderedPhotos` (album.go line 270): drop
every key that ends in the ordering document name. -/
def cleanKeysOf (imageKeys : List String) : List String :=
  imageKeys.filter (fun v => !hasSuffix v ORDERING_YAML_NAME)

/-- The configuration read from the ordering YAML document
(`AlbumOrderingConfiguration` in album.go). -/
structure AlbumOrderingConfiguration where
  Cover : String
  Thumbnails : List String
  Ordering : List String
  negativeCacheThis : Bool
deriving DecidableEq

/-- The zero value of `AlbumOrderingConfiguration`, which is what
`GetAlbumOrderingConfiguration` hands back alongside an error. -/
def emptyOrderingConfiguration : AlbumOrderingConfiguration :=
  { Cover := "", Thumbnails := [], Ordering := [], negativeCacheThis := false }

/-- The renderable triple produced by `GetOrderedPhotos` (`AlbumOrdering` in
album.go), generic over the renderable type produced by the external
collaborator `Site.GetPhotoForKey`. -/
structure AlbumOrdering (R : Type) where
  Cover : R
  Thumbnails : List R
  Ordering : List R
deriving DecidableEq

/-- Cover selection of `GetOrderedPhotos` (album.go lines 292 to 302), on
keys.  The source indexes `cleanImageKeys[0]` in both fallback branches;
`head?` returning `none` models the out-of-range panic that indexing raises
on an empty slice. -/
def selectCoverKey (cfg : AlbumOrderingConfiguration) (cleanKeys : List String) :
    Option String :=
  if cfg.Cover ≠ "" then
    if containsPath cleanKeys cfg.Cover then some cfg.Cover
    else cleanKeys.head?
  else cleanKeys.head?

/-- Thumbnail selection when the configuration lists thumbnails (album.go
lines 307 to 313).  The source's `thumbKeys[0:5]` is take 5; its
`thumbKeys[0:]` branch is the identity and is folded into the else. -/
def thumbKeysWithConfig (cleanKeys thumbs : List String) : List String :=
  let thumbKeys := mergeList cleanKeys thumbs
  if thumbKeys.length > 5 then thumbKeys.take 5
  else thumbKeys

/-- Thumbnail selection when the configuration lists no thumbnails (album.go
lines 314 to 323).  The source copies `cleanImageKeys` and slices it:
`thumbKeys[1:6]` when longer than 6, `thumbKeys[1:]` when longer than 1, and
otherwise keeps the copy unchanged. -/
def thumbKeysNoConfig (cleanKeys : List String) : List String :=
  let thumbKeys := cleanKeys
  if thumbKeys.length > 6 then (thumbKeys.drop 1).take 5
  else if thumbKeys.length > 1 then thumbKeys.drop 1
  else thumbKeys

/-- Embedding of `GetOrderedPhotos` (album.go line 244).  Inputs are the two
cache results: `orderingRes` from `GetAlbumOrderingConfiguration` (on error
the source only logs and keeps using the zero-value configuration) and
`keysRes` from `GetAllObjectKeys` (on error the source returns the error).
`render` is the external collaborator `Site.GetPhotoForKey`.  The outer
`Option` models panics: `none` is the out-of-range panic raised when the
cover selection indexes into an empty cleaned key list. -/
def getOrderedPhotos {R E : Type} (render : String → R)
    (orderingRes : Except E AlbumOrderingConfiguration)
    (keysRes : Except E (List String)) : Option (Except E (AlbumOrdering R)) :=
  match keysRes with
  | .error e => some (.error e)
  | .ok imageKeys =>
    let cfg :=
      match orderingRes with
      | .ok c => c
      | .error _ => emptyOrderingConfiguration
    let cleanKeys := cleanKeysOf imageKeys
    (selectCoverKey cfg cleanKeys).map (fun coverKey =>
      let thumbKeys :=
        if cfg.Thumbnails.length > 0 then thumbKeysWithConfig cleanKeys cfg.Thumbnails
        else thumbKeysNoConfig cleanKeys
      .ok { Cover := render coverKey,
            Thumbnails := thumbKeys.map render,
            Ordering := (mergeList cleanKeys cfg.Ordering).map render })

/-- The key-cache fields of `Album` (album.go lines 37 to 39): the atomic
value slot and the last-refresh instant, with time modelled as seconds. -/
structure KeyCacheState where
  keyCache : Option (List String)
  lastKeyCacheUpdate : Nat
deriving DecidableEq

/-- Constant `CACHE_INTERVAL` (1 hour), in seconds. -/
def CACHE_INTERVAL : Nat := 3600

/-- Embedding of `NeedsKeyCacheUpdate` (album.go line 529). -/
def needsKeyCacheUpdate (st : KeyCacheState) (now : Nat) : Bool :=
  now - st.lastKeyCacheUpdate > CACHE_INTERVAL

/-- Embedding of `GetAllObjectKeys` (album.go line 341) as a state
transformer.  `fetchRes` is the result `GetAllObjectKeysFromBucket` would
produce for this call.  Warm path: the cached keys are returned and, when the
value is stale, a successful fetch replaces the cache and the timestamp
while a failed refresh changes nothing.  Cold path: the fetch result is
returned; only a success is stored. -/
def getAllObjectKeys {E : Type} (st : KeyCacheState) (now : Nat)
    (fetchRes : Except E (List String)) :
    Except E (List String) × KeyCacheState :=
  match st.keyCache with
  | some cached =>
    let st2 :=
      if needsKeyCacheUpdate st now then
        match fetchRes with
        | .ok keys => { keyCache := some keys, lastKeyCacheUpdate := now }
        | .error _ => st
      else st
    (.ok cached, st2)
  | none =>
    match fetchRes with
    | .ok keys => (.ok keys, { keyCache := some keys, lastKeyCacheUpdate := now })
    | .error e => (.error e, st)

/-- Split a character list at every occurrence of `sep`, keeping empty
segments (the splitting underlying path-segment processing). -/
def splitOnChar (sep : Char) : List Char → List (List Char)
  | [] => [[]]
  | c :: rest =>
    if c = sep then [] :: splitOnChar sep rest
    else
      match splitOnChar sep rest with
      | [] => [[c]]
      | seg :: segs => (c :: seg) :: segs

/-- Remove-dot-segments over the segment list (RFC 3986 section 5.2.4, as
performed by the path resolution inside Go `net/url`): a `.` segment is
dropped, a `..` segment pops the previous output segment, and either as the
final segment leaves a trailing empty segment (a trailing slash). -/
def removeDotSegmentsAux : List (List Char) → List (List Char) → List (List Char)
  | [], acc => acc
  | [seg], acc =>
    if seg = ['.'] then acc ++ [[]]
    else if seg = ['.', '.'] then acc.dropLast ++ [[]]
    else acc ++ [seg]
  | seg :: rest, acc =>
    if seg = ['.'] then removeDotSegmentsAux rest acc
    else if seg = ['.', '.'] then removeDotSegmentsAux rest acc.dropLast
    else removeDotSegmentsAux rest (acc ++ [seg])

/-- Rejoin path segments with slashes. -/
def joinSlash : List (List Char) → List Char
  | [] => []
  | [seg] => seg
  | seg :: rest => seg ++ '/' :: joinSlash rest

/-- Remove-dot-segments on a path string. -/
def removeDotSegments (s : String) : String :=
  String.mk (joinSlash (removeDotSegmentsAux (splitOnChar '/' s.toList) []))

/-- The prefix of a path up to and including its last slash (empty when the
path has no slash) — the base-directory part used when merging a relative
reference with its base path. -/
def upToLastSlash (s : String) : String :=
  String.mk ((s.toList.reverse.dropWhile (fun c => !(c == '/'))).reverse)

/-- Model of `url.Parse` plus `URL.ResolveReference` as applied by the
preprocessing in album.go: both the album path and the configured keys are
plain path references (no scheme, authority, query or fragment), for which
resolution is the RFC 3986 merge — an absolute reference replaces the base
path, a relative one is appended to the base directory — followed by
remove-dot-segments. -/
def resolveReference (base ref : String) : String :=
  match ref.toList with
  | [] => base
  | '/' :: _ => removeDotSegments ref
  | _ => removeDotSegments (upToLastSlash base ++ ref)

/-- The fetch-time preprocessing of
`GetAlbumOrderingConfigurationFromS3AndPreprocess` (album.go lines 427 to
458) applied to a successfully parsed configuration.  `Cover` is replaced by
its resolved form.  For `Thumbnails` and `Ordering` the source appends each
resolved key to the very slice it is ranging over; a Go `range` iterates the
slice captured at loop entry, so the field ends as the original entries
followed by their resolved forms. -/
def preprocessOrderingConfig (path : String) (c : AlbumOrderingConfiguration) :
    AlbumOrderingConfiguration :=
  let c1 := if c.Cover ≠ "" then { c with Cover := resolveReference path c.Cover } else c
  let c2 :=
    if c1.Thumbnails.length > 0 then
      { c1 with Thumbnails :=
          c1.Thumbnails ++ c1.Thumbnails.map (fun v => resolveReference path v) }
    else c1
  if c2.Ordering.length > 0 then
    { c2 with Ordering :=
        c2.Ordering ++ c2.Ordering.map (fun v => resolveReference path v) }
  else c2

/-- The `Album` fields that `IsValid`, `Canonicalize` and the constructors
touch (album.go lines 23 to 44); the `site` pointer and the cache slots are
modelled separately. -/
structure AlbumModel where
  Path : String
  BucketPrefix : String
  AuthUser : String
  AuthPass : String
  MetaTitle : String
  AlbumTitle : String
  InIndex : Bool
deriving DecidableEq

/-- Embedding of `Album.HasOwnAuth` (album.go line 123). -/
def hasOwnAuth (a : AlbumModel) : Bool :=
  !(a.AuthUser == "") && !(a.AuthPass == "")

/-- Embedding of `Album.IsValid` (album.go line 106): `some` carries the
error message, `none` means valid. -/
def isValid (a : AlbumModel) : Option String :=
  if a.Path = "" then
    some "Path is a required parameter that must have a valid value."
  else if a.InIndex && hasOwnAuth a then
    some "An album that requires authentication cannot be shown in the index."
  else none

/-- Embedding of `Album.Canonicalize` (album.go line 117): append a slash
unless the last character already is one.  The source reads the last byte
and so would panic on an empty path, but `IsValid` has already rejected
empty paths whenever `Canonicalize` runs. -/
def canonicalize (a : AlbumModel) : AlbumModel :=
  if a.Path.toList.getLast? = some '/' then a
  else { a with Path := a.Path ++ "/" }

/-- Embedding of `NewAlbumFromConfig` (album.go line 72).  The ini-section
mapping is the external `section.MapTo` collaborator, so its output — the
album as mapped from the configuration file — is the input here. -/
def newAlbumFromConfig (mapped : AlbumModel) : Option AlbumModel :=
  match isValid mapped with
  | some _ => none
  | none => some (canonicalize mapped)

/-- Embedding of `NewAlbum` (album.go line 86). -/
def newAlbum (path bucketPrefix authUser authPass metaTitle albumTitle : String) :
    Option AlbumModel :=
  let album : AlbumModel :=
    { Path := path, BucketPrefix := bucketPrefix, AuthUser := authUser,
      AuthPass := authPass, MetaTitle := metaTitle, AlbumTitle := albumTitle,
      InIndex := true }
  match isValid album with
  | some _ => none
  | none => some (canonicalize album)

/-! Helper lemmas about the normalized path comparison and the merge. -/

theorem toList_append (s t : String) : (s ++ t).toList = s.toList ++ t.toList := by
  cases s
  cases t
  rfl

theorem toList_slash_append (s : String) : ("/" ++ s).toList = '/' :: s.toList := by
  cases s
  rfl

theorem trimLeftSlash_slash_append (s : String) :
    trimLeftSlash ("/" ++ s) = trimLeftSlash s := by
  simp [trimLeftSlash, toList_slash_append, List.dropWhile_cons]

theorem containsPath_iff (corpus : List String) (findme : String) :
    containsPath corpus findme = true ↔
      ∃ c ∈ corpus, trimLeftSlash c = trimLeftSlash findme := by
  simp [containsPath, List.any_eq_true]

theorem containsPath_eq_false_iff (corpus : List String) (findme : String) :
    containsPath corpus findme = false ↔
      ∀ c ∈ corpus, trimLeftSlash c ≠ trimLeftSlash findme := by
  simp [containsPath, List.any_eq_false]

theorem containsPath_append (u v : List String) (x : String) :
    containsPath (u ++ v) x = (containsPath u x || containsPath v x) := by
  simp [containsPath, List.any_append]

theorem pathDistinct_iff (l : List String) :
    pathDistinct l = true ↔
      l.Pairwise (fun a b => trimLeftSlash a ≠ trimLeftSlash b) := by
  induction l with
  | nil => simp [pathDistinct]
  | cons x rest ih =>
    simp only [pathDistinct, Bool.and_eq_true, Bool.not_eq_true', List.pairwise_cons, ih,
      containsPath_eq_false_iff]
    constructor
    · rintro ⟨h1, h2⟩
      exact ⟨fun b hb => (h1 b hb).symm, h2⟩
    · rintro ⟨h1, h2⟩
      exact ⟨fun b hb => (h1 b hb).symm, h2⟩

theorem appendMissing_decomp (l : List String) :
    ∀ acc, ∃ rest, appendMissing acc l = acc ++ rest ∧ rest.Sublist l ∧
      ∀ b ∈ rest, containsPath acc b = false := by
  induction l with
  | nil =>
    intro acc
    exact ⟨[], by simp [appendMissing], List.nil_sublist _, by simp⟩
  | cons b l2 ih =>
    intro acc
    cases hb : containsPath acc b with
    | true =>
      obtain ⟨rest, heq, hsub, hmem⟩ := ih acc
      exact ⟨rest, by simp [appendMissing, hb, heq], hsub.cons _, hmem⟩
    | false =>
      obtain ⟨rest, heq, hsub, hmem⟩ := ih (acc ++ [b])
      refine ⟨b :: rest, ?_, hsub.cons₂ _, ?_⟩
      · simp [appendMissing, hb, heq]
      · intro x hx
        rcases List.mem_cons.mp hx with hxb | hxr
        · subst hxb
          exact hb
        · have hfalse := hmem x hxr
          rw [containsPath_append] at hfalse
          exact (Bool.or_eq_false_iff.mp hfalse).1

theorem appendMissing_pairwise (l : List String) : ∀ acc,
    acc.Pairwise (fun a b => trimLeftSlash a ≠ trimLeftSlash b) →
    (appendMissing acc l).Pairwise (fun a b => trimLeftSlash a ≠ trimLeftSlash b) := by
  induction l with
  | nil =>
    intro acc h
    simpa [appendMissing] using h
  | cons b l2 ih =>
    intro acc hacc
    cases hb : containsPath acc b with
    | true => simpa [appendMissing, hb] using ih acc hacc
    | false =>
      have hacc2 : (acc ++ [b]).Pairwise (fun x y => trimLeftSlash x ≠ trimLeftSlash y) := by
        rw [List.pairwise_append]
        refine ⟨hacc, by simp, ?_⟩
        intro x hx y hy
        rw [List.mem_singleton] at hy
        subst hy
        exact (containsPath_eq_false_iff _ _).mp hb x hx
      simpa [appendMissing, hb] using ih (acc ++ [b]) hacc2

theorem appendMissing_of_fresh (l : List String) : ∀ acc,
    (∀ b ∈ l, containsPath acc b = false) → pathDistinct l = true →
    appendMissing acc l = acc ++ l := by
  induction l with
  | nil =>
    intro acc _ _
    simp [appendMissing]
  | cons b l2 ih =>
    intro acc hacc hdist
    have hb : containsPath acc b = false := hacc b (List.mem_cons_self _ _)
    have hdb : containsPath l2 b = false ∧ pathDistinct l2 = true := by
      simpa [pathDistinct, Bool.and_eq_true, Bool.not_eq_true'] using hdist
    rw [show appendMissing acc (b :: l2) = appendMissing (acc ++ [b]) l2 by
      simp [appendMissing, hb]]
    rw [ih (acc ++ [b]) ?_ hdb.2]
    · simp
    · intro x hx
      rw [containsPath_append]
      have h1 : containsPath acc x = false := hacc x (List.mem_cons_of_mem _ hx)
      have h2 : containsPath [b] x = false := by
        rw [containsPath_eq_false_iff]
        intro c hc
        rw [List.mem_singleton] at hc
        subst hc
        exact fun heq => ((containsPath_eq_false_iff _ _).mp hdb.1 x hx) heq.symm
      simp [h1, h2]

/-! Claim theorems. -/

/-- C5 counterexample: `mergeList` is NOT the identity on every authoritative
list when no preference is given — a duplicated authoritative entry is
dropped by the second pass. -/
theorem mergeList_identity_counterexample :
    mergeList ["a", "a"] [] ≠ ["a", "a"] := by
  decide

/-- C5 (amended): `mergeList A [] = A` whenever `A` has no two entries equal
under the leading-separator normalization. -/
theorem mergeList_identity_of_pathDistinct (A : List String)
    (h : pathDistinct A = true) : mergeList A [] = A := by
  have h0 : mergeList A [] = appendMissing [] A := rfl
  rw [h0, appendMissing_of_fresh A [] (fun b _ => rfl) h]
  simp

/-- Witness for the amended C5 at a concrete distinct list. -/
theorem mergeList_identity_of_pathDistinct_witness :
    pathDistinct ["a", "b"] = true ∧ mergeList ["a", "b"] [] = ["a", "b"] :=
  ⟨by decide, mergeList_identity_of_pathDistinct ["a", "b"] (by decide)⟩

/-- C3 counterexample: the merge output can contain duplicates — a duplicate
entry of the preferred list that exists in the authoritative list is
appended twice by the first pass. -/
theorem mergeList_duplicate_counterexample :
    mergeList ["a"] ["a", "a"] = ["a", "a"] ∧
      pathDistinct (mergeList ["a"] ["a", "a"]) = false :=
  ⟨rfl, rfl⟩

/-- C3 (amended): for every `A` and `P`, every entry of `mergeList A P` is
present in `A` under the normalized comparison and entries of `P` absent
from `A` are silently dropped (filtering them away first changes nothing);
the no-duplicates part alone needs the proviso that `P` itself has no
duplicate entries under the normalization. -/
theorem mergeList_amended_correct (A P : List String) :
    (∀ x ∈ mergeList A P, containsPath A x = true) ∧
      mergeList A P = mergeList A (P.filter (fun p => containsPath A p)) ∧
      (pathDistinct P = true → pathDistinct (mergeList A P) = true) := by
  refine ⟨?_, ?_, ?_⟩
  · intro x hx
    obtain ⟨rest, heq, hsub, hmem⟩ :=
      appendMissing_decomp A (P.filter (fun p => containsPath A p))
    have hx2 : x ∈ P.filter (fun p => containsPath A p) ++ rest := by
      rw [← heq]
      exact hx
    rcases List.mem_append.mp hx2 with hxf | hxr
    · exact (List.mem_filter.mp hxf).2
    · exact (containsPath_iff _ _).mpr ⟨x, hsub.subset hxr, rfl⟩
  · have hf : (P.filter (fun p => containsPath A p)).filter
        (fun p => containsPath A p) = P.filter (fun p => containsPath A p) :=
      List.filter_eq_self.mpr (fun a ha => (List.mem_filter.mp ha).2)
    simp only [mergeList, hf]
  · intro h
    rw [pathDistinct_iff]
    apply appendMissing_pairwise
    exact List.Pairwise.sublist (List.filter_sublist P) ((pathDistinct_iff P).mp h)

/-- Witness for the amended C3 at concrete lists, exercising the
duplicate-freedom proviso. -/
theorem mergeList_amended_correct_witness :
    (∀ x ∈ mergeList ["a", "b"] ["b", "zz"], containsPath ["a", "b"] x = true) ∧
      mergeList ["a", "b"] ["b", "zz"] =
        mergeList ["a", "b"]
          ((["b", "zz"]).filter (fun p => containsPath ["a", "b"] p)) ∧
      pathDistinct (mergeList ["a", "b"] ["b", "zz"]) = true :=
  ⟨(mergeList_amended_correct ["a", "b"] ["b", "zz"]).1,
   (mergeList_amended_correct ["a", "b"] ["b", "zz"]).2.1,
   (mergeList_amended_correct ["a", "b"] ["b", "zz"]).2.2 (by decide)⟩

/-- C4: the merge output is the preferred entries present in the
authoritative list (in preferred order) followed by a block of entries that
is a subsequence of the authoritative list (original relative order) none of
which appears in the preferred list — so every preferred entry present in
`A` precedes every non-preferred entry. -/
theorem mergeList_preferred_first (A P : List String) :
    ∃ rest, mergeList A P = P.filter (fun p => containsPath A p) ++ rest ∧
      rest.Sublist A ∧ ∀ b ∈ rest, containsPath P b = false := by
  obtain ⟨rest, heq, hsub, hmem⟩ :=
    appendMissing_decomp A (P.filter (fun p => containsPath A p))
  refine ⟨rest, heq, hsub, ?_⟩
  intro b hb
  cases hPb : containsPath P b with
  | false => rfl
  | true =>
    exfalso
    obtain ⟨p, hpP, hpb⟩ := (containsPath_iff _ _).mp hPb
    have hbA : b ∈ A := hsub.subset hb
    have hpA : containsPath A p = true := (containsPath_iff _ _).mpr ⟨b, hbA, hpb.symm⟩
    have hpfil : p ∈ P.filter (fun p => containsPath A p) :=
      List.mem_filter.mpr ⟨hpP, hpA⟩
    have hc : containsPath (P.filter (fun p => containsPath A p)) b = true :=
      (containsPath_iff _ _).mpr ⟨p, hpfil, hpb⟩
    rw [hmem b hb] at hc
    exact Bool.false_ne_true hc

/-- C7 counterexample: `containsPath` matches `//a` against `a` (Go
`strings.TrimLeft` strips every leading separator), while the single-strip
comparison stated by the claim does not. -/
theorem containsPath_single_strip_counterexample :
    containsPath ["//a"] "a" = true ∧ stripOneSlash "//a" ≠ stripOneSlash "a" :=
  ⟨rfl, by decide⟩

/-- C7 (amended): `containsPath corpus key` is true exactly when some corpus
entry equals the key after stripping ALL leading separators from each side,
and the result is insensitive to a leading separator prepended to the key or
to every corpus entry. -/
theorem containsPath_trimAll_characterization (corpus : List String) (key : String) :
    (containsPath corpus key = true ↔
      ∃ c ∈ corpus, trimLeftSlash c = trimLeftSlash key) ∧
    containsPath corpus ("/" ++ key) = containsPath corpus key ∧
    containsPath (corpus.map (fun c => "/" ++ c)) key = containsPath corpus key := by
  refine ⟨containsPath_iff corpus key, ?_, ?_⟩
  · simp [containsPath, trimLeftSlash_slash_append]
  · simp [containsPath, List.any_map, Function.comp_def, trimLeftSlash_slash_append]

/-- C6 counterexample: for a one-element cleaned key list the no-config
branch keeps the whole list, so the cover key itself becomes the thumbnail
instead of the claimed empty `cleanKeys[1:6]`. -/
theorem thumbKeysNoConfig_singleton_counterexample :
    thumbKeysNoConfig ["a.jpg"] = ["a.jpg"] ∧
      thumbKeysNoConfig ["a.jpg"] ≠ ((["a.jpg"] : List String).drop 1).take 5 :=
  ⟨rfl, by decide⟩

/-- C6 (amended): when the configuration lists no thumbnails and the cleaned
key list has at least two entries, the selection equals `cleanKeys[1:6]`
clamped to the available length — at most 5 entries, and free of the cover
key whenever the cleaned keys are duplicate-free; for a one-element list the
code instead returns the list itself (the cover). -/
theorem thumbKeysNoConfig_amended (ks : List String) (h : 2 ≤ ks.length) :
    thumbKeysNoConfig ks = (ks.drop 1).take 5 ∧
      (thumbKeysNoConfig ks).length ≤ 5 ∧
      (ks.Nodup → ∀ k, ks.head? = some k → k ∉ thumbKeysNoConfig ks) := by
  cases ks with
  | nil => simp at h
  | cons a tail =>
    by_cases h6 : (a :: tail).length > 6
    · have he : thumbKeysNoConfig (a :: tail) = ((a :: tail).drop 1).take 5 := by
        simp only [thumbKeysNoConfig]
        rw [if_pos h6]
      refine ⟨he, ?_, ?_⟩
      · rw [he]
        exact List.length_take_le 5 _
      · intro hnd k hk hmem
        have hak : a = k := by simpa using hk
        rw [he, show (a :: tail).drop 1 = tail from rfl] at hmem
        have hmt : k ∈ tail := (List.take_sublist 5 tail).subset hmem
        rw [← hak] at hmt
        exact (List.nodup_cons.mp hnd).1 hmt
    · have h1 : (a :: tail).length > 1 := by
        simpa using h
      have he : thumbKeysNoConfig (a :: tail) = (a :: tail).drop 1 := by
        simp only [thumbKeysNoConfig]
        rw [if_neg h6, if_pos h1]
      have htl : tail.length ≤ 5 := by
        simp only [List.length_cons] at h6
        omega
      refine ⟨?_, ?_, ?_⟩
      · rw [he, show (a :: tail).drop 1 = tail from rfl, List.take_of_length_le htl]
      · rw [he]
        exact htl
      · intro hnd k hk hmem
        have hak : a = k := by simpa using hk
        rw [he, show (a :: tail).drop 1 = tail from rfl] at hmem
        rw [← hak] at hmem
        exact (List.nodup_cons.mp hnd).1 hmem

/-- Witness for the amended C6 at a concrete three-element list. -/
theorem thumbKeysNoConfig_amended_witness :
    2 ≤ (["a", "b", "c"] : List String).length ∧
      (thumbKeysNoConfig ["a", "b", "c"] =
          ((["a", "b", "c"] : List String).drop 1).take 5 ∧
        (thumbKeysNoConfig ["a", "b", "c"]).length ≤ 5 ∧
        ((["a", "b", "c"] : List String).Nodup →
          ∀ k, (["a", "b", "c"] : List String).head? = some k →
            k ∉ thumbKeysNoConfig ["a", "b", "c"])) :=
  ⟨by decide, thumbKeysNoConfig_amended ["a", "b", "c"] (by decide)⟩

/-- C1: when the key listing succeeds but the cleaned key list is empty,
`GetOrderedPhotos` does not produce an empty-album error — it indexes
position 0 of the empty sequence, which is the panic the model's `none`
stands for. -/
theorem getOrderedPhotos_empty_cleanKeys_panics {R E : Type} (render : String → R)
    (orderingRes : Except E AlbumOrderingConfiguration) (imageKeys : List String)
    (h : cleanKeysOf imageKeys = []) :
    getOrderedPhotos render orderingRes (.ok imageKeys) = none := by
  have hsel : ∀ cfg, selectCoverKey cfg ([] : List String) = none := by
    intro cfg
    simp [selectCoverKey, containsPath]
  cases orderingRes with
  | ok c => simp [getOrderedPhotos, h, hsel]
  | error e => simp [getOrderedPhotos, h, hsel]

/-- Witness for C1: an album whose only object is its ordering document. -/
theorem getOrderedPhotos_empty_cleanKeys_panics_witness :
    cleanKeysOf ["a/ordering.yaml"] = [] ∧
      getOrderedPhotos (fun k => k)
        (Except.error () : Except Unit AlbumOrderingConfiguration)
        (.ok ["a/ordering.yaml"]) = none :=
  ⟨by decide, getOrderedPhotos_empty_cleanKeys_panics _ _ _ (by decide)⟩

/-- C8: whenever the key listing succeeds and the cleaned key list is
non-empty, `GetOrderedPhotos` returns a nil error — for every ordering-cache
outcome, including errors, which are only logged. -/
theorem getOrderedPhotos_ok_on_nonempty_keys {R E : Type} (render : String → R)
    (orderingRes : Except E AlbumOrderingConfiguration) (imageKeys : List String)
    (h : cleanKeysOf imageKeys ≠ []) :
    ∃ out, getOrderedPhotos render orderingRes (.ok imageKeys) = some (.ok out) := by
  obtain ⟨a, tail, htl⟩ : ∃ a tail, cleanKeysOf imageKeys = a :: tail := by
    cases hck : cleanKeysOf imageKeys with
    | nil => exact absurd hck h
    | cons a t => exact ⟨a, t, rfl⟩
  have hsel : ∀ cfg, ∃ k, selectCoverKey cfg (cleanKeysOf imageKeys) = some k := by
    intro cfg
    rw [htl]
    by_cases hc : cfg.Cover ≠ ""
    · by_cases hcp : containsPath (a :: tail) cfg.Cover
      · exact ⟨cfg.Cover, by simp [selectCoverKey, hc, hcp]⟩
      · exact ⟨a, by simp [selectCoverKey, hc, hcp]⟩
    · exact ⟨a, by simp [selectCoverKey, hc]⟩
  cases orderingRes with
  | ok c =>
    obtain ⟨k, hk⟩ := hsel c
    simp only [getOrderedPhotos, hk, Option.map_some']
    exact ⟨_, rfl⟩
  | error e =>
    obtain ⟨k, hk⟩ := hsel emptyOrderingConfiguration
    simp only [getOrderedPhotos, hk, Option.map_some']
    exact ⟨_, rfl⟩

/-- Witness for C8: key listing succeeded, ordering fetch failed, and the
resolution still returns without error. -/
theorem getOrderedPhotos_ok_on_nonempty_keys_witness :
    cleanKeysOf ["x.jpg"] ≠ [] ∧
      ∃ out, getOrderedPhotos (fun k => k)
        (Except.error "boom" : Except String AlbumOrderingConfiguration)
        (.ok ["x.jpg"]) = some (.ok out) :=
  ⟨by decide, getOrderedPhotos_ok_on_nonempty_keys _ _ _ (by decide)⟩

/-- C9: on the cold path (no cached key list) a failed bucket listing is
returned to the caller and the state is unchanged — the slot stays empty and
the last-refresh timestamp keeps its old value. -/
theorem getAllObjectKeys_cold_error_preserves_state {E : Type} (st : KeyCacheState)
    (now : Nat) (e : E) (h : st.keyCache = none) :
    getAllObjectKeys st now (.error e) = (.error e, st) := by
  cases st with
  | mk cache last =>
    simp only at h
    subst h
    rfl

/-- Witness for C9 at a concrete empty cache state. -/
theorem getAllObjectKeys_cold_error_preserves_state_witness :
    (⟨none, 0⟩ : KeyCacheState).keyCache = none ∧
      getAllObjectKeys (⟨none, 0⟩ : KeyCacheState) 5000
        (Except.error "store unreachable") =
        (Except.error "store unreachable", (⟨none, 0⟩ : KeyCacheState)) :=
  ⟨rfl, getAllObjectKeys_cold_error_preserves_state _ _ _ rfl⟩

/-- Canonicalization establishes the path invariant: the resulting path is
non-empty and its last character is a slash. -/
theorem canonicalize_path_slash (a : AlbumModel) :
    (canonicalize a).Path ≠ "" ∧ (canonicalize a).Path.toList.getLast? = some '/' := by
  unfold canonicalize
  by_cases hl : a.Path.toList.getLast? = some '/'
  · rw [if_pos hl]
    refine ⟨?_, hl⟩
    intro hempty
    rw [hempty] at hl
    simp at hl
  · rw [if_neg hl]
    constructor
    · intro hempty
      have h2 := congrArg String.toList hempty
      rw [toList_append] at h2
      simp at h2
    · show (a.Path ++ "/").toList.getLast? = some '/'
      rw [toList_append]
      exact List.getLast?_concat _

/-- Both constructors share the validate-then-canonicalize body; this is that
shared path invariant. -/
theorem newAlbumFromConfig_path_aux (m : AlbumModel) (a : AlbumModel)
    (ha : newAlbumFromConfig m = some a) :
    a.Path ≠ "" ∧ a.Path.toList.getLast? = some '/' := by
  unfold newAlbumFromConfig at ha
  cases hv : isValid m with
  | some msg =>
    rw [hv] at ha
    exact absurd ha (by simp)
  | none =>
    rw [hv] at ha
    rw [Option.some_inj] at ha
    rw [← ha]
    exact canonicalize_path_slash m

/-- C10: every album accepted by either constructor has a non-empty path
ending in the separator.  Validation rejects the empty path before
`Canonicalize` reads the last character, and `Canonicalize` appends a slash
exactly when it is missing; no other operation in the source assigns
`Album.Path`, so the invariant persists. -/
theorem newAlbum_path_invariant (mapped : AlbumModel)
    (p1 p2 p3 p4 p5 p6 : String) :
    (∀ a, newAlbumFromConfig mapped = some a →
      a.Path ≠ "" ∧ a.Path.toList.getLast? = some '/') ∧
    (∀ a, newAlbum p1 p2 p3 p4 p5 p6 = some a →
      a.Path ≠ "" ∧ a.Path.toList.getLast? = some '/') := by
  constructor
  · intro a ha
    exact newAlbumFromConfig_path_aux mapped a ha
  · intro a ha
    have ha2 : newAlbumFromConfig ⟨p1, p2, p3, p4, p5, p6, true⟩ = some a := ha
    exact newAlbumFromConfig_path_aux _ a ha2

/-- Witness for C10: both constructors at concrete arguments. -/
theorem newAlbum_path_invariant_witness :
    ((⟨"a/", "", "", "", "", "", true⟩ : AlbumModel).Path ≠ "" ∧
      (⟨"a/", "", "", "", "", "", true⟩ : AlbumModel).Path.toList.getLast? = some '/') ∧
    ((⟨"b/c/", "b/", "", "", "t", "t", true⟩ : AlbumModel).Path ≠ "" ∧
      (⟨"b/c/", "b/", "", "", "t", "t", true⟩ :
          AlbumModel).Path.toList.getLast? = some '/') :=
  ⟨(newAlbum_path_invariant ⟨"a", "", "", "", "", "", true⟩
      "b/c" "b/" "" "" "t" "t").1 _ (by decide),
   (newAlbum_path_invariant ⟨"a", "", "", "", "", "", true⟩
      "b/c" "b/" "" "" "t" "t").2 _ (by decide)⟩

/-- C2: evaluating the fetch-time preprocessing at a concrete configuration.
The cover is replaced by its resolved form, but the thumbnail and ordering
sequences end as the relative originals followed by the resolved keys — two
entries per configured entry, with the relative form still present — because
the source appends to the slice it is iterating instead of building a new
one. -/
theorem preprocessOrderingConfig_keeps_relative_originals :
    (preprocessOrderingConfig "album/"
        { Cover := "c.jpg", Thumbnails := ["a.jpg"], Ordering := ["b.jpg"],
          negativeCacheThis := false }).Cover = "album/c.jpg" ∧
    (preprocessOrderingConfig "album/"
        { Cover := "c.jpg", Thumbnails := ["a.jpg"], Ordering := ["b.jpg"],
          negativeCacheThis := false }).Thumbnails = ["a.jpg", "album/a.jpg"] ∧
    (preprocessOrderingConfig "album/"
        { Cover := "c.jpg", Thumbnails := ["a.jpg"], Ordering := ["b.jpg"],
          negativeCacheThis := false }).Ordering = ["b.jpg", "album/b.jpg"] :=
  ⟨rfl, rfl, rfl⟩
